import Mathlib

set_option maxRecDepth 8000
set_option linter.unreachableTactic false
set_option linter.unusedTactic false

/-!
Shallow embedding of `imgurdownloader/__init__.py` from the repository
tiberiuichim/imgur-album-recursive-downloader.

Modelling conventions:

* Python strings are modelled as `List Char` (`PyStr`); the specific string
  operations used by the source (`in` substring tests, `split(sep)[1]`,
  `split(c)[-1]`, `"%04d"` formatting) are given their own structural
  definitions below, each a direct translation of the Python expression.
* The network (the `requests` calls hidden behind `request`,
  `get_album_metadata`'s envelope and the album image listing), the
  `re.findall`/`set()` URL extraction of `find_albums`, and the external
  `UniqueSlugify` collaborator are injected through an `Env` record: a
  transport-level exception is `FetchOutcome.transportError`, a decoded JSON
  envelope is `FetchOutcome.envelope status success data`.  `Env.urlsIn`
  returns the list of URLs that `set(re.findall(URLS_REGEX, text))` yields
  (the iteration order of a Python `set` is unspecified, so it is part of
  the environment).
* The process-wide mutable state (the module-level `seen` list, the
  `processor` queue, and the files written to disk) is threaded explicitly
  as `St`; disk writes and the interesting internal actions are recorded as
  an ordered `Event` log.  A Python exception that escapes a function is an
  `Except.error`.
* The tasks pushed on the queue are `lambda: download_album(album=album)`
  closures.  Python closures capture the *variable* `album`, not its value;
  by the time any queued task runs, the enqueuing `for album in ...` loop
  has finished (the processor is single threaded and only pops tasks after
  the current task completes) and `album` is never reassigned after those
  loops, so the closure, when executed, sees the final loop value — the
  last element of the iterated list.  A queued task is therefore modelled
  as a `CrawlTask` record whose `album` field is `lastOf ds` for the list `ds`
  the loop ran over.
-/

/-- Python strings, modelled as lists of characters. -/
abbrev PyStr := List Char

/-- `isPrefixOfL pat s` : `pat` is a leading substring of `s`. -/
def isPrefixOfL : PyStr → PyStr → Bool
  | [], _ => true
  | _ :: _, [] => false
  | c :: cs, d :: ds => c == d && isPrefixOfL cs ds

/-- Python `pat in s` (substring containment). -/
def isSubstr (pat : PyStr) : PyStr → Bool
  | [] => isPrefixOfL pat []
  | c :: s => isPrefixOfL pat (c :: s) || isSubstr pat s

/-- Everything after the first occurrence of `pat` in `s`
(`[]` when `pat` does not occur; only used under an occurrence guard). -/
def afterFirst (pat : PyStr) : PyStr → PyStr
  | [] => []
  | c :: s => if isPrefixOfL pat (c :: s) then (c :: s).drop pat.length else afterFirst pat s

/-- Everything before the first occurrence of `pat` in `s`
(the whole string when `pat` does not occur). -/
def beforeFirst (pat : PyStr) : PyStr → PyStr
  | [] => []
  | c :: s => if isPrefixOfL pat (c :: s) then [] else c :: beforeFirst pat s

/-- Python `s.split(pat)[1]` for an occurring separator: the piece between
the first occurrence of `pat` and the following one (or the end). -/
def split1 (pat : PyStr) (s : PyStr) : PyStr := beforeFirst pat (afterFirst pat s)

/-- Python `s.split(c)[-1]`: the suffix after the last occurrence of the
single character `c` (the whole string when `c` does not occur). -/
def afterLastChar (c : Char) (s : PyStr) : PyStr :=
  (s.reverse.takeWhile (fun d => !(d == c))).reverse

/-- Python truthiness of an optional string: `None` and `""` are falsy. -/
def pyTruthyS : Option PyStr → Bool
  | none => false
  | some s => !s.isEmpty

/-- Python `o or b` for a nullable string `o`. -/
def pyOrStr (o : Option PyStr) (b : PyStr) : PyStr :=
  match o with
  | none => b
  | some s => if s.isEmpty then b else s

/-- `os.path.join` for the simple relative second components the source uses. -/
def pathJoin (a b : PyStr) : PyStr := a ++ '/' :: b

/-- Decimal digit character. -/
def digitChar (n : Nat) : Char := Char.ofNat (48 + n)

/-- Decimal representation of `n` (fuelled; called with fuel `n + 1`). -/
def decCharsAux : Nat → Nat → List Char
  | 0, _ => []
  | fuel + 1, n => if n < 10 then [digitChar n] else decCharsAux fuel (n / 10) ++ [digitChar (n % 10)]

/-- Python `"%04d" % n`: decimal digits of `n`, zero padded on the left to
at least four characters. -/
def pyPad4 (n : Nat) : PyStr :=
  let d := decCharsAux (n + 1) n
  List.replicate (4 - d.length) '0' ++ d

/-- `get_album_id` (lines 256-271): resolve a URL to an album identifier.
Note the gate is `'imgur.com' not in url` — substring containment over the
whole URL, not an inspection of the host component. -/
def get_album_id (url : PyStr) : Option PyStr :=
  if isSubstr "imgur.com".data url = false then none
  else if isSubstr "/gallery/".data url then some (split1 "/gallery/".data url)
  else if isSubstr "/a/".data url then some (split1 "/a/".data url)
  else if isSubstr "/r/".data url then some (afterLastChar '/' url)
  else none

/-- The suffix computation of `save_image` (lines 211-217):
`suffix = url.split('/')[-1].split('.')[-1]`, fall back to
`info['type'].split('/')[-1]` when `not suffix or '.' not in suffix`,
then normalize `jpeg` to `jpg`. -/
def imageSuffix (link ty : PyStr) : PyStr :=
  let suffix0 := afterLastChar '.' (afterLastChar '/' link)
  let suffix1 :=
    if suffix0 = [] ∨ isSubstr ".".data suffix0 = false then afterLastChar '/' ty else suffix0
  if suffix1 = "jpeg".data then "jpg".data else suffix1

/-- The fields of the album metadata JSON payload the source reads. -/
structure AlbumMeta where
  id : PyStr
  title : Option PyStr
  description : Option PyStr
  account_url : Option PyStr
  account_id : Option PyStr
  datetime : Int
  views : Int
  nsfw : Bool
deriving DecidableEq

/-- One element of an album's image listing (`info` in `save_image`). -/
structure ImageInfo where
  link : PyStr
  type : PyStr
  title : Option PyStr
  id : PyStr
  description : Option PyStr
deriving DecidableEq

/-- Observable actions of a run, in execution order. -/
inductive Event where
  | seenInsert (a : Option PyStr)
  | metaFetch (a : Option PyStr)
  | mkdir (path : PyStr)
  | enqueue (a : PyStr)
  | writeAlbumMeta (path : PyStr) (albumId : Option PyStr)
  | listingFetch (a : Option PyStr)
  | writeMedia (dir : PyStr) (filename : PyStr)
  | writeSidecar (dir : PyStr) (filename : PyStr)
  | writeIndexXml (dir : PyStr)
  | writeStyle (dir : PyStr)
deriving DecidableEq

/-- A queued `lambda: download_album(...)` task (see the closure note in the
header: for tasks enqueued by the discovery loops, `album` holds the final
value of the loop variable). -/
structure CrawlTask where
  url : Option PyStr
  album : Option PyStr
deriving DecidableEq

/-- The process-wide mutable state: the `processor` queue, the module-level
`seen` list and the event log. -/
structure St where
  queue : List CrawlTask
  seen : List (Option PyStr)
  log : List Event
deriving DecidableEq

/-- Python exceptions that escape the modelled functions. -/
inductive PyErr where
  | valueError
  | netError
deriving DecidableEq

/-- Outcome of one HTTP request: a raised transport/decoding exception, or a
decoded JSON envelope with its `status` and `success` fields. -/
inductive FetchOutcome (α : Type) where
  | transportError
  | envelope (status : Nat) (success : Bool) (data : α)
deriving DecidableEq

/-- The injected collaborators and the run configuration `G`. -/
structure Env where
  base : PyStr
  xml : Bool
  findAlbums : Bool
  metaResp : Option PyStr → FetchOutcome AlbumMeta
  imagesResp : Option PyStr → FetchOutcome (List ImageInfo)
  urlsIn : PyStr → List PyStr
  aslug : PyStr → PyStr
  islug : PyStr → PyStr

/-- `find_albums` (lines 154-158): URLs extracted from the text, resolved
through `get_album_id`, with `filter(None, ...)` dropping both `None` and
the empty string. -/
def find_albums (env : Env) (text : PyStr) : List PyStr :=
  ((env.urlsIn text).filterMap get_album_id).filter (fun s => decide (s ≠ []))

/-- Python `l[-1]` as an option (the last element of a list). -/
def lastOf : List PyStr → Option PyStr
  | [] => none
  | [x] => some x
  | _ :: y :: t => lastOf (y :: t)

/-- The tasks enqueued by a `for album in ds: processor.put(lambda:
download_album(album=album))` loop: one task per iteration, each closure
seeing the final loop value (see the closure note in the header). -/
def lateTasks (ds : List PyStr) : List CrawlTask :=
  ds.map (fun _ => { url := none, album := lastOf ds })

/-- `get_album_metadata` (lines 274-286): `.ok none` models the `False`
return on a failing envelope; a transport error inside `request`/`.json()`
is *not* caught there and escapes as an exception. -/
def get_album_metadata (env : Env) (album : Option PyStr) : Except PyErr (Option AlbumMeta) :=
  match env.metaResp album with
  | .transportError => .error .netError
  | .envelope st ok m => if st ≠ 200 ∨ ok = false then .ok none else .ok (some m)

/-- The result of one `save_image` call (lines 201-253): the media filename,
the returned entry dictionary, the tasks it enqueued and the events in
order. -/
structure Entry where
  typKey : PyStr
  filename : PyStr
  title : Option PyStr
  id : PyStr
  desc : Option PyStr
deriving DecidableEq

structure SaveResult where
  filename : PyStr
  entry : Entry
  tasks : List CrawlTask
  events : List Event
deriving DecidableEq

/-- `save_image` (lines 201-253). The sidecar `.txt` is only written outside
xml mode; discovered albums are enqueued whenever recursion is on; the
queued closures all see the final loop value (`lastOf ds`). -/
def save_image (env : Env) (info : ImageInfo) (destination : PyStr) (idx : Nat) : SaveResult :=
  let suffix := imageSuffix info.link info.type
  let title := pyOrStr info.title info.id
  let slug := env.islug title
  let filename := pyPad4 idx ++ '-' :: (slug ++ '.' :: suffix)
  let sidecarEvents : List Event :=
    if pyTruthyS info.description && !env.xml then
      [Event.writeSidecar destination (pyPad4 idx ++ '-' :: (slug ++ ".txt".data))]
    else []
  let ds : List PyStr :=
    if pyTruthyS info.description && env.findAlbums then
      find_albums env (pyOrStr info.description [])
    else []
  let newTasks : List CrawlTask := lateTasks ds
  let typ1 :=
    if suffix ∈ ["mp4".data, "webm".data, "ogv".data, "ogg".data] then "vid".data else "img".data
  let typ2 := if suffix ∈ ["gifv".data] then "gifv".data else typ1
  { filename := filename
    entry :=
      { typKey := typ2, filename := filename, title := info.title, id := info.id,
        desc := info.description }
    tasks := newTasks
    events := Event.writeMedia destination filename :: (sidecarEvents ++ ds.map Event.enqueue) }

/-- The per-image loop `for idx, info in enumerate(res['data'])` shared by
both output branches of `download_album`. -/
def imageLoop (env : Env) (dest : PyStr) (imgs : List ImageInfo) : List SaveResult :=
  imgs.enum.map (fun p => save_image env p.2 dest p.1)

/-- The value of the local variable `album` in `download_album` after the
`for album in find_albums(meta['description'] or '')` loop: the loop
*rebinds* `album`, so when recursion is on and the description yields at
least one identifier the local holds the last discovered one; otherwise it
still holds the identifier being processed. -/
def reboundId (env : Env) (a : Option PyStr) (meta : AlbumMeta) : Option PyStr :=
  let ds : List PyStr := if env.findAlbums then find_albums env (pyOrStr meta.description []) else []
  match lastOf ds with
  | some l => some l
  | none => a

/-- Everything `download_album` does after a successful metadata fetch
(lines 315-388): destination and title defaults, slug, `makedirs`, the
album-description discovery loop (which *rebinds* the local `album` to the
last discovered identifier), the discrete `album-metadata.txt`, the image
listing request (with its `try`/`except` returning `False`), and the two
serialization branches.  Returns the tasks enqueued and the events. -/
def afterMeta (env : Env) (a : Option PyStr) (meta : AlbumMeta) (dst : Option PyStr) :
    List CrawlTask × List Event :=
  let destination := pyOrStr dst env.base
  let title := pyOrStr meta.title "Unknown Artists - Untitled Album".data
  let albumSlug := env.aslug title
  let album_path := pathJoin destination albumSlug
  let ds : List PyStr := if env.findAlbums then find_albums env (pyOrStr meta.description []) else []
  let a2 : Option PyStr := reboundId env a meta
  let newTasks : List CrawlTask := lateTasks ds
  let preEvents : List Event :=
    Event.mkdir album_path :: ds.map Event.enqueue
      ++ (if env.xml = false then [Event.writeAlbumMeta album_path a2] else [])
      ++ [Event.listingFetch a2]
  match env.imagesResp a2 with
  | .transportError => (newTasks, preEvents)
  | .envelope st ok imgs =>
    if st ≠ 200 ∨ ok = false then (newTasks, preEvents)
    else
      let results := imageLoop env album_path imgs
      let loopTasks := (results.map SaveResult.tasks).flatten
      let loopEvents := (results.map SaveResult.events).flatten
      if env.xml = false then (newTasks ++ loopTasks, preEvents ++ loopEvents)
      else
        (newTasks ++ loopTasks,
         preEvents ++ Event.writeIndexXml album_path :: (loopEvents ++ [Event.writeStyle album_path]))

/-- The body of `download_album` from the metadata fetch on: the fetch event,
the `if not meta: return` downgrade, then `afterMeta`. -/
def processAlbum (env : Env) (a : Option PyStr) (dst : Option PyStr) :
    Except PyErr (List CrawlTask × List Event) :=
  match get_album_metadata env a with
  | .error e => .error e
  | .ok none => .ok ([], [Event.metaFetch a])
  | .ok (some m) =>
    let r := afterMeta env a m dst
    .ok (r.1, Event.metaFetch a :: r.2)

/-- The identifier `download_album` works with after its resolution step:
`if url: album = get_album_id(url)`. -/
def resolveA (url album : Option PyStr) : Option PyStr :=
  if pyTruthyS url then get_album_id (pyOrStr url []) else album

/-- `download_album` (lines 289-388) acting on the process state.  The
caller-contract guard raises `ValueError`; the dedup check returns with no
effect; otherwise the identifier is appended to `seen` and the album is
processed.  A raised exception (`ValueError`, or the uncaught transport
error of the metadata fetch) discards the state because it aborts the whole
run. -/
def download_album (env : Env) (url album destination : Option PyStr) (s : St) :
    Except PyErr St :=
  if pyTruthyS url = false ∧ pyTruthyS album = false then .error .valueError
  else if resolveA url album ∈ s.seen then .ok s
  else
    match processAlbum env (resolveA url album) destination with
    | .error e => .error e
    | .ok te =>
      .ok { queue := s.queue ++ te.1
            seen := s.seen ++ [resolveA url album]
            log := s.log ++ Event.seenInsert (resolveA url album) :: te.2 }

/-- `Processor.start` (lines 140-148), fuelled: pop the front task, run it,
repeat until the queue is empty.  `none` means the fuel ran out with a
non-empty queue; every queued call passes no destination, as in the source. -/
def runQueue (env : Env) : Nat → St → Option (Except PyErr St)
  | 0, s => if s.queue = [] then some (.ok s) else none
  | n + 1, s =>
    match s.queue with
    | [] => some (.ok s)
    | t :: rest =>
      match download_album env t.url t.album none { queue := rest, seen := s.seen, log := s.log } with
      | .error e => some (.error e)
      | .ok s2 => runQueue env n s2

/-- Number of occurrences of an event in a log. -/
def countEv (x : Event) (l : List Event) : Nat :=
  (l.filter (fun e => decide (e = x))).length

/-- The identifiers whose metadata was fetched, in order. -/
def metaFetchIds (l : List Event) : List (Option PyStr) :=
  l.filterMap (fun e => match e with | Event.metaFetch x => some x | _ => none)

/-- The identifiers whose image listing was requested, in order. -/
def listingFetchIds (l : List Event) : List (Option PyStr) :=
  l.filterMap (fun e => match e with | Event.listingFetch x => some x | _ => none)

/-- The identifiers written on the `Album ID:` line of `album-metadata.txt`. -/
def albumMetaIds (l : List Event) : List (Option PyStr) :=
  l.filterMap (fun e => match e with | Event.writeAlbumMeta _ x => some x | _ => none)

/-- The identifiers announced by the `Queuing download of album` log line. -/
def enqueueIds (l : List Event) : List PyStr :=
  l.filterMap (fun e => match e with | Event.enqueue x => some x | _ => none)

/-- Is this event a per-image `.txt` sidecar write? -/
def isSidecarEv : Event → Bool
  | Event.writeSidecar _ _ => true
  | _ => false

/-- Is this event the `index.xml` write? -/
def isIndexXmlEv : Event → Bool
  | Event.writeIndexXml _ => true
  | _ => false

/-- Is this event the `archive.xsl` write? -/
def isStyleEv : Event → Bool
  | Event.writeStyle _ => true
  | _ => false

/-- Sidecar `.txt` writes in a log. -/
def countSidecar (l : List Event) : Nat := (l.filter isSidecarEv).length

/-- `index.xml` writes in a log. -/
def countIndexXml (l : List Event) : Nat := (l.filter isIndexXmlEv).length

/-- `archive.xsl` writes in a log. -/
def countStyleXsl (l : List Event) : Nat := (l.filter isStyleEv).length

/-- The `album` fields of the tasks a (successful) `processAlbum` enqueues. -/
def enqAlbums (env : Env) (a : Option PyStr) : List (Option PyStr) :=
  match processAlbum env a none with
  | .ok te => te.1.map CrawlTask.album
  | .error _ => []

/-- Modelled from the spec: the "host component" of a URL ("Any URL whose
host is not the target image host yields no match") — the piece between
the scheme separator and the next slash.  This is the spec-side comparand;
the source itself never extracts a host. -/
def specHostComponent (url : PyStr) : PyStr :=
  beforeFirst "/".data (afterFirst "://".data url)

def metaW : AlbumMeta :=
  { id := "mid".data, title := some "T".data, description := none, account_url := none,
    account_id := none, datetime := 0, views := 0, nsfw := false }

def envW : Env :=
  { base := "/d".data, xml := false, findAlbums := false,
    metaResp := fun _ => .envelope 200 true metaW,
    imagesResp := fun _ => .envelope 200 true [],
    urlsIn := fun _ => [], aslug := fun s => s, islug := fun s => s }

def imgsW : List ImageInfo :=
  [{ link := "https://i.imgur.com/a.jpg".data, type := "image/jpeg".data,
     title := some "t1".data, id := "i1".data, description := none },
   { link := "https://i.imgur.com/b.mp4".data, type := "video/mp4".data,
     title := none, id := "i2".data, description := none }]

/-- Events that touch the dedup ledger or the metadata fetch. -/
def isMI : Event → Bool
  | Event.seenInsert _ => true
  | Event.metaFetch _ => true
  | _ => false

def m10 : AlbumMeta :=
  { id := "a0".data, title := some "A".data, description := some "D".data, account_url := none,
    account_id := none, datetime := 0, views := 0, nsfw := false }

def E10 : Env :=
  { base := "/d".data, xml := false, findAlbums := true,
    metaResp := fun x =>
      if x = some "a0".data then .envelope 200 true m10 else .envelope 404 false m10,
    imagesResp := fun _ => .envelope 200 true [],
    urlsIn := fun t =>
      if t = "D".data then ["https://imgur.com/a/b1".data, "https://imgur.com/a/c2".data]
      else [],
    aslug := fun s => s, islug := fun s => s }

def te10 : List CrawlTask × List Event :=
  match processAlbum E10 (some "a0".data) none with
  | .ok te => te
  | .error _ => ([], [])

instance {ε α : Type} [DecidableEq ε] [DecidableEq α] : DecidableEq (Except ε α) := fun a b =>
  match a, b with
  | .error e, .error f =>
    if h : e = f then .isTrue (h ▸ rfl)
    else .isFalse (by intro hc; injection hc with h2; exact h h2)
  | .error _, .ok _ => .isFalse (by intro hc; exact Except.noConfusion hc)
  | .ok _, .error _ => .isFalse (by intro hc; exact Except.noConfusion hc)
  | .ok x, .ok y =>
    if h : x = y then .isTrue (h ▸ rfl)
    else .isFalse (by intro hc; injection hc with h2; exact h h2)

/-- The log of a `download_album` result (empty on a raised exception). -/
def logOf : Except PyErr St → List Event :=
  fun r => match r with | .ok s => s.log | .error _ => []

def E2 : Env :=
  { base := "/d".data, xml := false, findAlbums := false,
    metaResp := fun x =>
      if x = some "x1".data then .transportError else .envelope 200 true metaW,
    imagesResp := fun _ => .envelope 200 true [],
    urlsIn := fun _ => [], aslug := fun s => s, islug := fun s => s }

/-- The metadata-fetch identifiers of a completed run. -/
def runMetaIds : Option (Except PyErr St) → Option (List (Option PyStr)) :=
  fun r => match r with
  | some (.ok s) => some (metaFetchIds s.log)
  | _ => none

/-- The enqueued (discovered) identifiers of a completed run. -/
def runEnqIds : Option (Except PyErr St) → Option (List PyStr) :=
  fun r => match r with
  | some (.ok s) => some (enqueueIds s.log)
  | _ => none

/-- The final `seen` ledger of a completed run. -/
def runSeen : Option (Except PyErr St) → Option (List (Option PyStr)) :=
  fun r => match r with
  | some (.ok s) => some s.seen
  | _ => none

def E8x : Env :=
  { base := "/d".data, xml := true, findAlbums := false,
    metaResp := fun _ => .envelope 200 true metaW,
    imagesResp := fun _ => .envelope 200 true [],
    urlsIn := fun _ => [], aslug := fun s => s, islug := fun s => s }

def te8 : List CrawlTask × List Event :=
  match processAlbum E8x (some "a".data) none with
  | .ok te => te
  | .error _ => ([], [])

/-- The invariant behind the dedup property: each identifier in `seen` was
inserted exactly once, identifiers not in `seen` never, and in every prefix
of the log the metadata fetches for an identifier never outnumber its
insertions. -/
def InvC1 (s : St) : Prop :=
  (∀ x, x ∈ s.seen → countEv (Event.seenInsert x) s.log = 1) ∧
  (∀ x, x ∉ s.seen → countEv (Event.seenInsert x) s.log = 0) ∧
  (∀ (x : Option PyStr) (k : Nat),
    countEv (Event.metaFetch x) (s.log.take k) ≤ countEv (Event.seenInsert x) (s.log.take k))

def s1fin : St :=
  match runQueue E10 6
    { queue := [{ url := none, album := some "a0".data },
                { url := none, album := some "a0".data }],
      seen := [], log := [] } with
  | some (.ok s) => s
  | _ => { queue := [], seen := [], log := [] }

/-- The largest number of tasks any single album of the universe `U` can
enqueue. -/
def maxEnq (env : Env) (U : List (Option PyStr)) : Nat :=
  (U.map (fun a => (enqAlbums env a).length)).foldr max 0

/-- How many identifiers of the universe are not yet in the Seen-Set. -/
def unseenCount (U seen : List (Option PyStr)) : Nat :=
  (U.dedup.filter (fun a => decide (a ∉ seen))).length

/-- The termination measure: pending tasks plus capacity for future
enqueues, bounded by the unseen part of the finite universe. -/
def crawlMeasure (env : Env) (U : List (Option PyStr)) (s : St) : Nat :=
  s.queue.length + (maxEnq env U + 1) * unseenCount U s.seen

def mA4 : AlbumMeta :=
  { id := "a".data, title := some "A".data, description := some "DA".data, account_url := none,
    account_id := none, datetime := 0, views := 0, nsfw := false }

def mB4 : AlbumMeta :=
  { id := "b".data, title := some "B".data, description := some "DB".data, account_url := none,
    account_id := none, datetime := 0, views := 0, nsfw := false }

/-- A two-album cyclic reference graph: `a`'s description links to `b` and
`b`'s description links back to `a`. -/
def E4 : Env :=
  { base := "/d".data, xml := false, findAlbums := true,
    metaResp := fun x =>
      if x = some "a".data then .envelope 200 true mA4
      else if x = some "b".data then .envelope 200 true mB4
      else .envelope 404 false mA4,
    imagesResp := fun _ => .envelope 200 true [],
    urlsIn := fun t =>
      if t = "DA".data then ["https://imgur.com/a/b".data]
      else if t = "DB".data then ["https://imgur.com/a/a".data]
      else [],
    aslug := fun s => s, islug := fun s => s }

def U4 : List (Option PyStr) := [some "a".data, some "b".data]

/-! ### Theorems -/

/-! ### Basic string lemmas -/

theorem takeWhile_not_self (c : Char) :
    ∀ l : PyStr, c ∉ l.takeWhile (fun d => !(d == c)) := by
  intro l
  induction l with
  | nil => simp
  | cons d t ih =>
    by_cases h : d = c
    · subst h
      simp [List.takeWhile_cons]
    · simp [List.takeWhile_cons, h]
      exact ⟨fun hc => h hc.symm, ih⟩

theorem not_mem_afterLastChar (c : Char) (s : PyStr) : c ∉ afterLastChar c s := by
  unfold afterLastChar
  rw [List.mem_reverse]
  exact takeWhile_not_self c s.reverse

theorem isSubstr_single (c : Char) : ∀ s : PyStr, isSubstr [c] s = true ↔ c ∈ s := by
  intro s
  induction s with
  | nil => simp [isSubstr, isPrefixOfL]
  | cons d t ih =>
    simp only [isSubstr, isPrefixOfL, Bool.and_true, Bool.or_eq_true, beq_iff_eq,
      List.mem_cons, ih]

/-- The fallback condition `not suffix or '.' not in suffix` of `save_image`
is vacuously true: the URL-derived candidate is the piece after the last
dot, which never contains a dot, so the suffix always comes from the MIME
subtype. -/
theorem imageSuffix_eq_mime (link ty : PyStr) :
    imageSuffix link ty =
      (if afterLastChar '/' ty = "jpeg".data then "jpg".data else afterLastChar '/' ty) := by
  have h : isSubstr ".".data (afterLastChar '.' (afterLastChar '/' link)) = false := by
    rw [show (".".data : PyStr) = ['.'] from rfl]
    rw [Bool.eq_false_iff]
    intro hc
    exact not_mem_afterLastChar '.' (afterLastChar '/' link) ((isSubstr_single _ _).mp hc)
  simp [imageSuffix, h]

theorem decCharsAux_len :
    ∀ (k n fuel : Nat), n < fuel → n < 10 ^ k → (decCharsAux fuel n).length ≤ max k 1 := by
  intro k
  induction k with
  | zero =>
    intro n fuel hf hk
    have hn : n = 0 := by simpa using hk
    subst hn
    cases fuel with
    | zero => omega
    | succ f => simp [decCharsAux]
  | succ k ih =>
    intro n fuel hf hk
    cases fuel with
    | zero => omega
    | succ f =>
      by_cases h10 : n < 10
      · simp [decCharsAux, h10]
      · have hn0 : 0 < n := by omega
        have hlt : n / 10 < n := Nat.div_lt_self hn0 (by norm_num)
        have hdiv : n / 10 < f := by omega
        have hpow : n / 10 < 10 ^ k := by
          rw [Nat.div_lt_iff_lt_mul (by norm_num : (0:Nat) < 10)]
          rw [pow_succ] at hk
          exact hk
        have hrec := ih (n / 10) f hdiv hpow
        have hk1 : 1 ≤ k := by
          by_contra hc
          have hk0 : k = 0 := by omega
          subst hk0
          simp [pow_succ] at hk
          omega
        simp [decCharsAux, h10]
        omega

theorem pyPad4_length (n : Nat) (h : n < 10000) : (pyPad4 n).length = 4 := by
  have hlen : (decCharsAux (n + 1) n).length ≤ 4 := by
    have := decCharsAux_len 4 n (n + 1) (by omega) (by norm_num; omega)
    omega
  simp [pyPad4]
  omega

theorem pyPad4_take (n : Nat) (h : n < 10000) (rest : PyStr) :
    (pyPad4 n ++ rest).take 4 = pyPad4 n := by
  have h4 : (4 : Nat) = (pyPad4 n).length := (pyPad4_length n h).symm
  rw [h4, List.take_left]

/-! ### C6 — host check of `get_album_id` -/

/-- C6 counterexample: a URL hosted on `evil.example` whose path merely
contains the text `imgur.com` passes the `'imgur.com' in url` gate and
resolves to an identifier, so the claim "only URLs hosted on imgur.com can
ever yield a canonical identifier" is false of the code. -/
theorem get_album_id_nonhost_counterexample :
    specHostComponent "https://evil.example/imgur.com/a/x".data = "evil.example".data ∧
    specHostComponent "https://evil.example/imgur.com/a/x".data ≠ "imgur.com".data ∧
    get_album_id "https://evil.example/imgur.com/a/x".data = some "x".data := by
  refine ⟨by decide, by decide, by decide⟩

/-- C6 amended: the gate `get_album_id` actually applies is substring
containment of `imgur.com` anywhere in the URL; any URL not containing
that substring yields no match immediately, before any shape check. -/
theorem get_album_id_requires_substring (url : PyStr)
    (h : isSubstr "imgur.com".data url = false) : get_album_id url = none := by
  simp [get_album_id, h]

theorem get_album_id_requires_substring_witness :
    isSubstr "imgur.com".data "https://example.com/a/x".data = false ∧
    get_album_id "https://example.com/a/x".data = none :=
  ⟨by decide, get_album_id_requires_substring _ (by decide)⟩

/-! ### C7 — extension derivation in `save_image` -/

/-- C7: the claim says the suffix is derived from the source URL's trailing
extension with MIME fallback only when that is absent or implausible.  In
the code the fallback test `'.' not in suffix` is applied to the part
*after* the last dot, which can never contain a dot, so the URL-derived
candidate is always discarded: the suffix always comes from the MIME
subtype (then `jpeg` is normalized to `jpg`).  A `.jpeg` URL with a
`image/png` MIME type therefore yields `png`, not `jpg`. -/
theorem imageSuffix_ignores_url :
    imageSuffix "https://i.imgur.com/photo.jpeg".data "image/png".data = "png".data ∧
    ∀ link ty : PyStr,
      imageSuffix link ty =
        (if afterLastChar '/' ty = "jpeg".data then "jpg".data else afterLastChar '/' ty) :=
  ⟨by decide, imageSuffix_eq_mime⟩

/-! ### C9 — filename position prefixes -/

theorem save_image_filename (env : Env) (info : ImageInfo) (d : PyStr) (i : Nat) :
    (save_image env info d i).filename =
      pyPad4 i ++ '-' :: (env.islug (pyOrStr info.title info.id) ++
        '.' :: imageSuffix info.link info.type) := rfl

theorem imageLoop_prefixes_aux (env : Env) (dest : PyStr) :
    ∀ (imgs : List ImageInfo) (k : Nat), k + imgs.length ≤ 10000 →
      (imgs.enumFrom k).map (fun p => (save_image env p.2 dest p.1).filename.take 4) =
        (List.range' k imgs.length).map pyPad4 := by
  intro imgs
  induction imgs with
  | nil => intro k hk; simp
  | cons i t ih =>
    intro k hk
    have hk4 : k < 10000 := by simp at hk; omega
    simp only [List.enumFrom, List.map_cons, List.length_cons, List.range']
    rw [ih (k + 1) (by simp at hk ⊢; omega)]
    rw [save_image_filename]
    rw [pyPad4_take k hk4]

/-- C9: the `enumerate`-driven image loop produces filenames whose 4-digit
prefixes are exactly `0000 .. N-1` in listing order. -/
theorem imageLoop_order_preservation (env : Env) (dest : PyStr) (imgs : List ImageInfo)
    (h : imgs.length ≤ 10000) :
    (imageLoop env dest imgs).map (fun r => r.filename.take 4) =
      (List.range imgs.length).map pyPad4 := by
  unfold imageLoop
  rw [List.map_map]
  have henum : imgs.enum = imgs.enumFrom 0 := rfl
  rw [henum, List.range_eq_range']
  exact imageLoop_prefixes_aux env dest imgs 0 (by omega)

/-! ### C9 witness material -/

theorem imageLoop_order_preservation_witness :
    imgsW.length ≤ 10000 ∧
    (imageLoop envW "/d".data imgsW).map (fun r => r.filename.take 4) =
      (List.range imgsW.length).map pyPad4 :=
  ⟨by decide, imageLoop_order_preservation envW "/d".data imgsW (by decide)⟩

/-! ### Structural lemmas about the processing pipeline -/

theorem lastOf_mem : ∀ (l : List PyStr) (x : PyStr), lastOf l = some x → x ∈ l := by
  intro l
  induction l with
  | nil => intro x h; simp [lastOf] at h
  | cons a t ih =>
    intro x h
    cases t with
    | nil =>
      simp [lastOf] at h
      simp [h]
    | cons b u =>
      rw [show lastOf (a :: b :: u) = lastOf (b :: u) from rfl] at h
      exact List.mem_cons_of_mem _ (ih x h)

theorem lastOf_ex : ∀ (l : List PyStr), l ≠ [] → ∃ x, lastOf l = some x := by
  intro l
  induction l with
  | nil => intro h; exact absurd rfl h
  | cons a t ih =>
    intro _
    cases t with
    | nil => exact ⟨a, rfl⟩
    | cons b u => exact ih (by simp)

theorem find_albums_ne_nil (env : Env) (txt : PyStr) : ∀ x ∈ find_albums env txt, x ≠ [] := by
  intro x hx
  unfold find_albums at hx
  exact of_decide_eq_true (List.mem_filter.mp hx).2

theorem lateTasks_shape (ds : List PyStr) (h : ∀ x ∈ ds, x ≠ []) :
    ∀ t ∈ lateTasks ds, t.url = none ∧ pyTruthyS t.album = true := by
  intro t ht
  rcases List.mem_map.mp ht with ⟨w, hw, rfl⟩
  refine ⟨rfl, ?_⟩
  have hne : ds ≠ [] := by
    intro h0
    rw [h0] at hw
    exact absurd hw (List.not_mem_nil w)
  obtain ⟨g, hg⟩ := lastOf_ex ds hne
  have hgn : g ≠ [] := h g (lastOf_mem ds g hg)
  rw [hg]
  cases g with
  | nil => exact absurd rfl hgn
  | cons c cs => rfl

theorem save_image_events_cases (env : Env) (info : ImageInfo) (d : PyStr) (i : Nat) :
    ∀ e ∈ (save_image env info d i).events,
      (∃ p q, e = Event.writeMedia p q) ∨ (∃ p q, e = Event.writeSidecar p q) ∨
      ∃ x, e = Event.enqueue x := by
  intro e he
  simp only [save_image, List.mem_cons, List.mem_append] at he
  rcases he with h | h | h
  · exact Or.inl ⟨_, _, h⟩
  · split at h
    · simp at h
      exact Or.inr (Or.inl ⟨_, _, h⟩)
    · simp at h
  · rcases List.mem_map.mp h with ⟨x, _, rfl⟩
    exact Or.inr (Or.inr ⟨x, rfl⟩)

theorem save_image_tasks_shape (env : Env) (info : ImageInfo) (d : PyStr) (i : Nat) :
    ∀ t ∈ (save_image env info d i).tasks, t.url = none ∧ pyTruthyS t.album = true := by
  intro t ht
  simp only [save_image] at ht
  revert ht
  split
  · intro ht
    exact lateTasks_shape _ (find_albums_ne_nil env _) t ht
  · intro ht
    simp [lateTasks] at ht

theorem dsOf_ne_nil (env : Env) (o : Option PyStr) :
    ∀ x ∈ (if env.findAlbums then find_albums env (pyOrStr o []) else []), x ≠ [] := by
  split
  · exact find_albums_ne_nil env _
  · simp

theorem imageLoop_tasks_shape (env : Env) (dest : PyStr) (imgs : List ImageInfo) :
    ∀ t ∈ ((imageLoop env dest imgs).map SaveResult.tasks).flatten,
      t.url = none ∧ pyTruthyS t.album = true := by
  intro t ht
  rcases List.mem_flatten.mp ht with ⟨l, hl, htl⟩
  rcases List.mem_map.mp hl with ⟨r, hr, rfl⟩
  unfold imageLoop at hr
  rcases List.mem_map.mp hr with ⟨p, _, rfl⟩
  exact save_image_tasks_shape env p.2 dest p.1 t htl

theorem imageLoop_events_cases (env : Env) (dest : PyStr) (imgs : List ImageInfo) :
    ∀ e ∈ ((imageLoop env dest imgs).map SaveResult.events).flatten,
      (∃ p q, e = Event.writeMedia p q) ∨ (∃ p q, e = Event.writeSidecar p q) ∨
      ∃ x, e = Event.enqueue x := by
  intro e he
  rcases List.mem_flatten.mp he with ⟨l, hl, hel⟩
  rcases List.mem_map.mp hl with ⟨r, hr, rfl⟩
  unfold imageLoop at hr
  rcases List.mem_map.mp hr with ⟨p, _, rfl⟩
  exact save_image_events_cases env p.2 dest p.1 e hel

theorem afterMeta_tasks_shape (env : Env) (a : Option PyStr) (meta : AlbumMeta)
    (dst : Option PyStr) :
    ∀ t ∈ (afterMeta env a meta dst).1, t.url = none ∧ pyTruthyS t.album = true := by
  intro t ht
  simp only [afterMeta] at ht
  split at ht
  · exact lateTasks_shape _ (dsOf_ne_nil env meta.description) t ht
  · split at ht
    · exact lateTasks_shape _ (dsOf_ne_nil env meta.description) t ht
    · split at ht <;>
      · rcases List.mem_append.mp ht with h | h
        · exact lateTasks_shape _ (dsOf_ne_nil env meta.description) t h
        · exact imageLoop_tasks_shape env _ _ t h

theorem afterMeta_events_noMI (env : Env) (a : Option PyStr) (meta : AlbumMeta)
    (dst : Option PyStr) :
    ∀ e ∈ (afterMeta env a meta dst).2, isMI e = false := by
  have hpre : ∀ (path : PyStr) (ds : List PyStr) (mid : List Event) (x : Option PyStr),
      (∀ e ∈ mid, isMI e = false) →
      ∀ e ∈ (Event.mkdir path :: ds.map Event.enqueue ++ mid ++ [Event.listingFetch x]),
        isMI e = false := by
    intro path ds mid x hmid e he
    rcases List.mem_append.mp he with h | h
    · rcases List.mem_append.mp h with h | h
      · rcases List.mem_cons.mp h with h | h
        · subst h; rfl
        · rcases List.mem_map.mp h with ⟨y, _, rfl⟩; rfl
      · exact hmid e h
    · simp at h; subst h; rfl
  have hIf : ∀ (p : PyStr) (x : Option PyStr),
      ∀ e ∈ (if env.xml = false then [Event.writeAlbumMeta p x] else ([] : List Event)),
        isMI e = false := by
    intro p x e he
    split at he
    · simp at he; subst he; rfl
    · simp at he
  have hW : ∀ (p : PyStr) (x : Option PyStr), ∀ e ∈ [Event.writeAlbumMeta p x], isMI e = false := by
    intro p x e he; simp at he; subst he; rfl
  have hN : ∀ e ∈ ([] : List Event), isMI e = false := by simp
  have hloop : ∀ (dest : PyStr) (imgs : List ImageInfo),
      ∀ e ∈ ((imageLoop env dest imgs).map SaveResult.events).flatten, isMI e = false := by
    intro dest imgs e he
    rcases imageLoop_events_cases env dest imgs e he with ⟨p, q, rfl⟩ | ⟨p, q, rfl⟩ | ⟨x, rfl⟩ <;>
      rfl
  have hIdx : ∀ (path dest : PyStr) (imgs : List ImageInfo),
      ∀ e ∈ (Event.writeIndexXml path ::
          (((imageLoop env dest imgs).map SaveResult.events).flatten ++ [Event.writeStyle path])),
        isMI e = false := by
    intro path dest imgs e he
    rcases List.mem_cons.mp he with h | h
    · subst h; rfl
    · rcases List.mem_append.mp h with h | h
      · exact hloop _ _ e h
      · simp at h; subst h; rfl
  intro e he
  simp only [afterMeta] at he
  split at he
  · exact hpre _ _ _ _ (hIf _ _) e he
  · split at he
    · exact hpre _ _ _ _ (hIf _ _) e he
    · split at he <;>
        rcases List.mem_append.mp he with h | h
      · first
          | exact hpre _ _ _ _ (hIf _ _) e h
          | exact hpre _ _ _ _ (hW _ _) e h
      · exact hloop _ _ e h
      · first
          | exact hpre _ _ _ _ (hIf _ _) e h
          | exact hpre _ _ _ _ (hW _ _) e h
          | exact hpre _ _ _ _ hN e h
      · exact hIdx _ _ _ e h

theorem filterMapEv_eq_nil {β : Type} (f : Event → Option β) :
    ∀ (l : List Event), (∀ e ∈ l, f e = none) → l.filterMap f = [] := by
  intro l
  induction l with
  | nil => intro _; rfl
  | cons a t ih =>
    intro h
    rw [List.filterMap_cons, h a (by simp)]
    exact ih (fun e he => h e (by simp [he]))

theorem listingFetchIds_afterMeta (env : Env) (a : Option PyStr) (meta : AlbumMeta)
    (dst : Option PyStr) :
    listingFetchIds (afterMeta env a meta dst).2 = [reboundId env a meta] := by
  have hpre : ∀ (path : PyStr) (ds : List PyStr) (mid : List Event) (x : Option PyStr),
      (∀ e ∈ mid, (∃ p q, e = Event.writeAlbumMeta p q) ∨ e ∈ ([] : List Event)) →
      listingFetchIds (Event.mkdir path :: ds.map Event.enqueue ++ mid ++ [Event.listingFetch x])
        = [x] := by
    intro path ds mid x hmid
    unfold listingFetchIds
    rw [List.filterMap_append, List.filterMap_append, List.filterMap_cons]
    rw [filterMapEv_eq_nil _ (ds.map Event.enqueue) ?henq, filterMapEv_eq_nil _ mid ?hmid]
    · rfl
    case henq =>
      intro e he
      rcases List.mem_map.mp he with ⟨y, _, rfl⟩
      rfl
    case hmid =>
      intro e he
      rcases hmid e he with ⟨p, q, rfl⟩ | h
      · rfl
      · simp at h
  have hIfmid : ∀ (p : PyStr) (x : Option PyStr),
      ∀ e ∈ (if env.xml = false then [Event.writeAlbumMeta p x] else ([] : List Event)),
        (∃ p q, e = Event.writeAlbumMeta p q) ∨ e ∈ ([] : List Event) := by
    intro p x e he
    split at he
    · simp at he; exact Or.inl ⟨_, _, he⟩
    · simp at he
  have hWmid : ∀ (p : PyStr) (x : Option PyStr),
      ∀ e ∈ [Event.writeAlbumMeta p x],
        (∃ p q, e = Event.writeAlbumMeta p q) ∨ e ∈ ([] : List Event) := by
    intro p x e he
    simp at he
    exact Or.inl ⟨_, _, he⟩
  have hNmid : ∀ e ∈ ([] : List Event),
      (∃ p q, e = Event.writeAlbumMeta p q) ∨ e ∈ ([] : List Event) := by simp
  have hloop : ∀ (dest : PyStr) (imgs : List ImageInfo),
      listingFetchIds ((imageLoop env dest imgs).map SaveResult.events).flatten = [] := by
    intro dest imgs
    apply filterMapEv_eq_nil
    intro e he
    rcases imageLoop_events_cases env dest imgs e he with ⟨p, q, rfl⟩ | ⟨p, q, rfl⟩ | ⟨x, rfl⟩ <;>
      rfl
  simp only [afterMeta]
  split
  · first
      | exact hpre _ _ _ _ (hIfmid _ _)
      | exact hpre _ _ _ _ (hWmid _ _)
      | exact hpre _ _ _ _ hNmid
  · split
    · first
        | exact hpre _ _ _ _ (hIfmid _ _)
        | exact hpre _ _ _ _ (hWmid _ _)
        | exact hpre _ _ _ _ hNmid
    · have happ : ∀ l l2 : List Event,
          listingFetchIds (l ++ l2) = listingFetchIds l ++ listingFetchIds l2 := by
        intro l l2
        simp [listingFetchIds]
      have hxmlrest : ∀ (path dest : PyStr) (imgs : List ImageInfo),
          listingFetchIds (Event.writeIndexXml path ::
            (((imageLoop env dest imgs).map SaveResult.events).flatten ++
              [Event.writeStyle path])) = [] := by
        intro path dest imgs
        apply filterMapEv_eq_nil
        intro e he
        rcases List.mem_cons.mp he with h | h
        · subst h; rfl
        · rcases List.mem_append.mp h with h | h
          · rcases imageLoop_events_cases env dest imgs e h with
              ⟨p, q, rfl⟩ | ⟨p, q, rfl⟩ | ⟨x, rfl⟩ <;> rfl
          · simp at h; subst h; rfl
      split
      · rw [happ, hloop, List.append_nil]
        first
          | exact hpre _ _ _ _ (hIfmid _ _)
          | exact hpre _ _ _ _ (hWmid _ _)
          | exact hpre _ _ _ _ hNmid
      · rw [happ, hxmlrest, List.append_nil]
        first
          | exact hpre _ _ _ _ (hIfmid _ _)
          | exact hpre _ _ _ _ (hWmid _ _)
          | exact hpre _ _ _ _ hNmid

theorem albumMetaIds_afterMeta (env : Env) (a : Option PyStr) (meta : AlbumMeta)
    (dst : Option PyStr) :
    albumMetaIds (afterMeta env a meta dst).2 =
      (if env.xml = false then [reboundId env a meta] else []) := by
  have happ : ∀ l l2 : List Event,
      albumMetaIds (l ++ l2) = albumMetaIds l ++ albumMetaIds l2 := by
    intro l l2
    simp [albumMetaIds]
  have hcomm : ∀ (path : PyStr) (ds : List PyStr) (mid : List Event) (x : Option PyStr),
      albumMetaIds (Event.mkdir path :: ds.map Event.enqueue ++ mid ++ [Event.listingFetch x]) =
        albumMetaIds mid := by
    intro path ds mid x
    rw [happ, happ]
    have h1 : albumMetaIds (Event.mkdir path :: ds.map Event.enqueue) = [] := by
      apply filterMapEv_eq_nil
      intro e he
      rcases List.mem_cons.mp he with h | h
      · subst h; rfl
      · rcases List.mem_map.mp h with ⟨y, _, rfl⟩; rfl
    have h2 : albumMetaIds [Event.listingFetch x] = [] := rfl
    rw [h1, h2, List.append_nil, List.nil_append]
  have hloop : ∀ (dest : PyStr) (imgs : List ImageInfo),
      albumMetaIds ((imageLoop env dest imgs).map SaveResult.events).flatten = [] := by
    intro dest imgs
    apply filterMapEv_eq_nil
    intro e he
    rcases imageLoop_events_cases env dest imgs e he with ⟨p, q, rfl⟩ | ⟨p, q, rfl⟩ | ⟨x, rfl⟩ <;>
      rfl
  have hxmlrest : ∀ (path dest : PyStr) (imgs : List ImageInfo),
      albumMetaIds (Event.writeIndexXml path ::
        (((imageLoop env dest imgs).map SaveResult.events).flatten ++
          [Event.writeStyle path])) = [] := by
    intro path dest imgs
    apply filterMapEv_eq_nil
    intro e he
    rcases List.mem_cons.mp he with h | h
    · subst h; rfl
    · rcases List.mem_append.mp h with h | h
      · rcases imageLoop_events_cases env dest imgs e h with
          ⟨p, q, rfl⟩ | ⟨p, q, rfl⟩ | ⟨x, rfl⟩ <;> rfl
      · simp at h; subst h; rfl
  simp only [afterMeta]
  split
  · rw [hcomm]
    first
      | (split <;> rfl)
      | rfl
  · split
    · rw [hcomm]
      first
        | (split <;> rfl)
        | rfl
    · split
      · rw [happ, hloop, List.append_nil, hcomm]
        first
          | (split <;> rfl)
          | rfl
      · rw [happ, hxmlrest, List.append_nil, hcomm]
        first
          | (split <;> rfl)
          | rfl

theorem processAlbum_shape (env : Env) (a dst : Option PyStr)
    (te : List CrawlTask × List Event) (h : processAlbum env a dst = .ok te) :
    ∃ rest, te.2 = Event.metaFetch a :: rest ∧ ∀ e ∈ rest, isMI e = false := by
  simp only [processAlbum] at h
  cases hm : get_album_metadata env a with
  | error e => rw [hm] at h; simp at h
  | ok om =>
    rw [hm] at h
    cases om with
    | none =>
      simp only [Except.ok.injEq] at h
      exact ⟨[], by rw [← h], fun e he => absurd he (List.not_mem_nil e)⟩
    | some m =>
      simp only [Except.ok.injEq] at h
      exact ⟨(afterMeta env a m dst).2, by rw [← h], afterMeta_events_noMI env a m dst⟩

theorem processAlbum_tasks_shape (env : Env) (a dst : Option PyStr)
    (te : List CrawlTask × List Event) (h : processAlbum env a dst = .ok te) :
    ∀ t ∈ te.1, t.url = none ∧ pyTruthyS t.album = true := by
  simp only [processAlbum] at h
  cases hm : get_album_metadata env a with
  | error e => rw [hm] at h; simp at h
  | ok om =>
    rw [hm] at h
    cases om with
    | none =>
      simp only [Except.ok.injEq] at h
      rw [← h]
      intro t ht
      simp at ht
    | some m =>
      simp only [Except.ok.injEq] at h
      rw [← h]
      exact afterMeta_tasks_shape env a m dst

theorem processAlbum_ok_of_envelope (env : Env) (a dst : Option PyStr) (st : Nat) (ok : Bool)
    (m : AlbumMeta) (h : env.metaResp a = .envelope st ok m) :
    ∃ te, processAlbum env a dst = .ok te := by
  simp only [processAlbum, get_album_metadata, h]
  by_cases hc : st ≠ 200 ∨ ok = false
  · rw [if_pos hc]
    exact ⟨_, rfl⟩
  · rw [if_neg hc]
    exact ⟨_, rfl⟩

theorem processAlbum_error_transport (env : Env) (a dst : Option PyStr) (e : PyErr)
    (h : processAlbum env a dst = .error e) :
    env.metaResp a = .transportError ∧ e = .netError := by
  cases hm : env.metaResp a with
  | transportError =>
    simp only [processAlbum, get_album_metadata, hm, Except.error.injEq] at h
    exact ⟨rfl, h.symm⟩
  | envelope st ok m =>
    obtain ⟨te, hok⟩ := processAlbum_ok_of_envelope env a dst st ok m hm
    rw [hok] at h
    exact absurd h (by simp)

theorem download_album_falsy (env : Env) (u alb d : Option PyStr) (s : St)
    (hu : pyTruthyS u = false) (ha : pyTruthyS alb = false) :
    download_album env u alb d s = .error .valueError := by
  unfold download_album
  rw [if_pos ⟨hu, ha⟩]

theorem download_album_noop (env : Env) (u alb d : Option PyStr) (s : St)
    (h : pyTruthyS u = true ∨ pyTruthyS alb = true) (hm : resolveA u alb ∈ s.seen) :
    download_album env u alb d s = .ok s := by
  unfold download_album
  rw [if_neg ?h0, if_pos hm]
  case h0 => rcases h with h | h <;> simp [h]

theorem download_album_new (env : Env) (u alb d : Option PyStr) (s : St)
    (te : List CrawlTask × List Event)
    (h : pyTruthyS u = true ∨ pyTruthyS alb = true) (hm : resolveA u alb ∉ s.seen)
    (hp : processAlbum env (resolveA u alb) d = .ok te) :
    download_album env u alb d s =
      .ok { queue := s.queue ++ te.1, seen := s.seen ++ [resolveA u alb],
            log := s.log ++ Event.seenInsert (resolveA u alb) :: te.2 } := by
  unfold download_album
  rw [if_neg ?h0, if_neg hm, hp]
  case h0 => rcases h with h | h <;> simp [h]

theorem download_album_new_err (env : Env) (u alb d : Option PyStr) (s : St) (e : PyErr)
    (h : pyTruthyS u = true ∨ pyTruthyS alb = true) (hm : resolveA u alb ∉ s.seen)
    (hp : processAlbum env (resolveA u alb) d = .error e) :
    download_album env u alb d s = .error e := by
  unfold download_album
  rw [if_neg ?h0, if_neg hm, hp]
  case h0 => rcases h with h | h <;> simp [h]

theorem download_album_ok_cases (env : Env) (u alb d : Option PyStr) (s s2 : St)
    (h : download_album env u alb d s = .ok s2) :
    (resolveA u alb ∈ s.seen ∧ s2 = s) ∨
    (∃ te, processAlbum env (resolveA u alb) d = .ok te ∧ resolveA u alb ∉ s.seen ∧
      s2 = { queue := s.queue ++ te.1, seen := s.seen ++ [resolveA u alb],
             log := s.log ++ Event.seenInsert (resolveA u alb) :: te.2 }) := by
  unfold download_album at h
  by_cases h0 : pyTruthyS u = false ∧ pyTruthyS alb = false
  · rw [if_pos h0] at h
    simp at h
  · rw [if_neg h0] at h
    by_cases h1 : resolveA u alb ∈ s.seen
    · rw [if_pos h1] at h
      injection h with h
      exact Or.inl ⟨h1, h.symm⟩
    · rw [if_neg h1] at h
      cases hp : processAlbum env (resolveA u alb) d with
      | error e => rw [hp] at h; simp at h
      | ok te =>
        rw [hp] at h
        injection h with h
        exact Or.inr ⟨te, rfl, h1, h.symm⟩

/-! ### C10 — the rebinding of `album` by the discovery loop -/

/-- C10: after a successful metadata fetch, the discrete-mode `Album ID:`
line and the image-listing request both use `reboundId` — the last
identifier discovered in the album's own description when recursion is on
and the description yields at least one, and the processed album's own
identifier otherwise. -/
theorem rebound_album_id (env : Env) (a dst : Option PyStr) (m : AlbumMeta)
    (te : List CrawlTask × List Event)
    (hm : env.metaResp a = .envelope 200 true m)
    (hp : processAlbum env a dst = .ok te) :
    listingFetchIds te.2 = [reboundId env a m] ∧
    albumMetaIds te.2 = (if env.xml = false then [reboundId env a m] else []) := by
  simp only [processAlbum, get_album_metadata, hm, Except.ok.injEq] at hp
  rw [if_neg (by simp)] at hp
  simp only [Except.ok.injEq] at hp
  constructor
  · rw [← hp]
    exact listingFetchIds_afterMeta env a m dst
  · rw [← hp]
    exact albumMetaIds_afterMeta env a m dst

theorem rebound_album_id_witness :
    reboundId E10 (some "a0".data) m10 = some "c2".data ∧
    (listingFetchIds te10.2 = [reboundId E10 (some "a0".data) m10] ∧
     albumMetaIds te10.2 =
       (if E10.xml = false then [reboundId E10 (some "a0".data) m10] else [])) :=
  ⟨by decide, rebound_album_id E10 (some "a0".data) none m10 te10 (by decide) (by rfl)⟩

/-! ### C5 — the Resolving guard -/

/-- C5 counterexample: `https://imgur.com/x` contains `imgur.com` but fits
no recognized shape, so `get_album_id` yields no identifier — yet
`download_album` proceeds: `None` is inserted into `seen` and the metadata
fetch is issued for the null identifier, contradicting "a call whose URL
does not resolve to an identifier does not go on to the dedup check or the
metadata fetch". -/
theorem unresolved_url_reaches_fetch :
    get_album_id "https://imgur.com/x".data = none ∧
    countEv (Event.seenInsert none)
      (logOf (download_album envW (some "https://imgur.com/x".data) none none
        { queue := [], seen := [], log := [] })) = 1 ∧
    countEv (Event.metaFetch none)
      (logOf (download_album envW (some "https://imgur.com/x".data) none none
        { queue := [], seen := [], log := [] })) = 1 := by
  refine ⟨by decide, by decide, by decide⟩

/-- C5 amended: the caller-contract half of the claim holds — a call with
neither a URL nor an identifier (both absent or empty, hence falsy) raises
`ValueError`.  But a URL that fails to resolve does *not* stop the album:
the null identifier flows on into the dedup check (inserting `None` into
`seen`) and the metadata fetch (requesting album `None`). -/
theorem resolving_guard_amended :
    (∀ (env : Env) (u alb d : Option PyStr) (s : St),
       pyTruthyS u = false → pyTruthyS alb = false →
       download_album env u alb d s = .error .valueError) ∧
    (∀ (env : Env) (u : PyStr) (d : Option PyStr) (s : St) (st : Nat) (ok : Bool)
       (m : AlbumMeta),
       u ≠ [] → get_album_id u = none → (none : Option PyStr) ∉ s.seen →
       env.metaResp none = .envelope st ok m →
       ∃ s2, download_album env (some u) none d s = .ok s2 ∧
         Event.seenInsert none ∈ s2.log ∧ Event.metaFetch none ∈ s2.log) := by
  constructor
  · intro env u alb d s hu ha
    exact download_album_falsy env u alb d s hu ha
  · intro env u d s st ok m hune hres hseen hmr
    have htr : pyTruthyS (some u) = true := by
      cases u with
      | nil => exact absurd rfl hune
      | cons c t => rfl
    have hpy : pyOrStr (some u) [] = u := by
      cases u with
      | nil => exact absurd rfl hune
      | cons c t => rfl
    have hr : resolveA (some u) none = none := by
      simp [resolveA, htr, hpy, hres]
    obtain ⟨te, hok⟩ := processAlbum_ok_of_envelope env none d st ok m hmr
    have hda := download_album_new env (some u) none d s te (Or.inl htr)
      (by rw [hr]; exact hseen) (by rw [hr]; exact hok)
    rw [hr] at hda
    refine ⟨_, hda, ?_, ?_⟩
    · simp
    · obtain ⟨rest, hrest, _⟩ := processAlbum_shape env none d te hok
      simp [hrest]

theorem resolving_guard_amended_witness :
    (download_album envW none none none { queue := [], seen := [], log := [] }
      = .error .valueError) ∧
    (∃ s2, download_album envW (some "https://imgur.com/x".data) none none
        { queue := [], seen := [], log := [] } = .ok s2 ∧
      Event.seenInsert none ∈ s2.log ∧ Event.metaFetch none ∈ s2.log) :=
  ⟨resolving_guard_amended.1 envW none none none _ (by decide) (by decide),
   resolving_guard_amended.2 envW "https://imgur.com/x".data none _ 200 true metaW
     (by decide) (by decide) (by decide) (by decide)⟩

/-! ### C2 — failure isolation -/

/-- C2 counterexample: a transport error during the album-metadata fetch of
`x1` is *not* caught anywhere — it escapes `get_album_metadata`,
`download_album`, and aborts the whole `Processor.start` loop, so the
queued task for `y1` is never executed.  This contradicts "no such failure
ever propagates to the Work Queue driver, which always proceeds to the
next queued task". -/
theorem meta_transport_error_propagates :
    runQueue E2 3
      { queue := [{ url := none, album := some "x1".data },
                  { url := none, album := some "y1".data }],
        seen := [], log := [] } = some (.error .netError) := by
  decide

theorem download_album_ok_of_no_transport (env : Env) (u alb d : Option PyStr) (s : St)
    (hwf : pyTruthyS u = true ∨ pyTruthyS alb = true)
    (hT : env.metaResp (resolveA u alb) ≠ .transportError) :
    ∃ s2, download_album env u alb d s = .ok s2 := by
  by_cases hm : resolveA u alb ∈ s.seen
  · exact ⟨s, download_album_noop env u alb d s hwf hm⟩
  · cases hmr : env.metaResp (resolveA u alb) with
    | transportError => exact absurd hmr hT
    | envelope st ok m =>
      obtain ⟨te, hok⟩ := processAlbum_ok_of_envelope env (resolveA u alb) d st ok m hmr
      exact ⟨_, download_album_new env u alb d s te hwf hm hok⟩

theorem runQueue_no_error_aux (env : Env)
    (hT : ∀ x, env.metaResp x ≠ .transportError) :
    ∀ (n : Nat) (s : St),
      (∀ t ∈ s.queue, pyTruthyS t.url = true ∨ pyTruthyS t.album = true) →
      ∀ e, runQueue env n s ≠ some (.error e) := by
  intro n
  induction n with
  | zero =>
    intro s _ e hc
    simp only [runQueue] at hc
    split at hc
    · simp at hc
    · simp at hc
  | succ n ih =>
    intro s hq e hc
    simp only [runQueue] at hc
    cases hqueue : s.queue with
    | nil => rw [hqueue] at hc; simp at hc
    | cons t rest =>
      rw [hqueue] at hc
      have hwf : pyTruthyS t.url = true ∨ pyTruthyS t.album = true :=
        hq t (by rw [hqueue]; exact List.mem_cons_self t rest)
      obtain ⟨s2, hda⟩ := download_album_ok_of_no_transport env t.url t.album none
        { queue := rest, seen := s.seen, log := s.log } hwf (hT _)
      simp only [hda] at hc
      refine ih s2 ?_ e hc
      rcases download_album_ok_cases env t.url t.album none _ s2 hda with ⟨_, rfl⟩ | ⟨te, hok, _, rfl⟩
      · intro t2 ht2
        exact hq t2 (by rw [hqueue]; exact List.mem_cons_of_mem t ht2)
      · intro t2 ht2
        rcases List.mem_append.mp ht2 with h | h
        · exact hq t2 (by rw [hqueue]; exact List.mem_cons_of_mem t h)
        · exact Or.inr (processAlbum_tasks_shape env _ none te hok t2 h).2

/-- C2 amended: every envelope-reported failure (of either fetch) and every
transport error during the image-listing fetch is caught inside
`download_album` and downgraded to a logged skip of that album, and under
those failures the driver always proceeds; but a *transport error during
the album-metadata fetch* is not caught — it propagates out of the Album
Processor and aborts the Work Queue run (see
`meta_transport_error_propagates`).  Formally: whenever no album-metadata
fetch raises a transport error, `download_album` always returns normally
and the driver never surfaces an exception. -/
theorem failure_isolation_amended :
    (∀ (env : Env) (u alb d : Option PyStr) (s : St),
       (pyTruthyS u = true ∨ pyTruthyS alb = true) →
       env.metaResp (resolveA u alb) ≠ .transportError →
       ∃ s2, download_album env u alb d s = .ok s2) ∧
    (∀ (env : Env), (∀ x, env.metaResp x ≠ .transportError) →
       ∀ (n : Nat) (s : St),
         (∀ t ∈ s.queue, pyTruthyS t.url = true ∨ pyTruthyS t.album = true) →
         ∀ e, runQueue env n s ≠ some (.error e)) :=
  ⟨download_album_ok_of_no_transport, runQueue_no_error_aux⟩

theorem failure_isolation_amended_witness :
    (∃ s2, download_album envW none (some "w1".data) none
      { queue := [], seen := [], log := [] } = .ok s2) ∧
    runQueue envW 3 { queue := [{ url := none, album := some "w1".data }], seen := [], log := [] }
      ≠ some (.error .netError) :=
  ⟨failure_isolation_amended.1 envW none (some "w1".data) none _ (by decide)
     (fun h => FetchOutcome.noConfusion h),
   failure_isolation_amended.2 envW (fun _ h => FetchOutcome.noConfusion h) 3 _ (by decide)
     .netError⟩

/-! ### C3 — late-binding task closures -/

/-- C3 evaluation at the failing input: album `a0`'s description discovers
the two distinct identifiers `b1` and `c2` (both enqueue events fire), yet
the two queued `lambda: download_album(album=album)` closures both read
the loop variable after the loop finished, so both tasks process `c2`:
the run fetches metadata only for `a0` and `c2`, marks only those two as
seen, and never processes `b1`.  The claim's "N distinct discovered
identifiers lead to N executions with N distinct identifiers" fails. -/
theorem closure_latebind_eval :
    runEnqIds (runQueue E10 6
      { queue := [{ url := none, album := some "a0".data }], seen := [], log := [] }) =
      some ["b1".data, "c2".data] ∧
    runMetaIds (runQueue E10 6
      { queue := [{ url := none, album := some "a0".data }], seen := [], log := [] }) =
      some [some "a0".data, some "c2".data] ∧
    runSeen (runQueue E10 6
      { queue := [{ url := none, album := some "a0".data }], seen := [], log := [] }) =
      some [some "a0".data, some "c2".data] := by
  refine ⟨by decide, by decide, by decide⟩

/-! ### C8 — mode exclusivity -/

theorem filterEv_eq_nil (p : Event → Bool) :
    ∀ l : List Event, (∀ e ∈ l, p e = false) → l.filter p = [] := by
  intro l
  induction l with
  | nil => intro _; rfl
  | cons a t ih =>
    intro h
    rw [List.filter_cons, h a (by simp)]
    simp only [Bool.false_eq_true, if_false]
    exact ih (fun e he => h e (by simp [he]))

theorem save_image_sidecar_mem_xml (env : Env) (info : ImageInfo) (d : PyStr) (i : Nat)
    (hx : env.xml = true) :
    ∀ e ∈ (save_image env info d i).events, isSidecarEv e = false := by
  intro e he
  simp only [save_image] at he
  rcases List.mem_cons.mp he with h | h
  · subst h; rfl
  · rcases List.mem_append.mp h with h | h
    · rw [hx] at h
      simp at h
    · rcases List.mem_map.mp h with ⟨x, _, rfl⟩; rfl

theorem afterMeta_no_structured_of_nonxml (env : Env) (a : Option PyStr) (meta : AlbumMeta)
    (dst : Option PyStr) (hx : env.xml = false) :
    ∀ e ∈ (afterMeta env a meta dst).2, isIndexXmlEv e = false ∧ isStyleEv e = false := by
  have hpre : ∀ (path : PyStr) (ds : List PyStr) (mid : List Event) (x : Option PyStr),
      (∀ e ∈ mid, isIndexXmlEv e = false ∧ isStyleEv e = false) →
      ∀ e ∈ (Event.mkdir path :: ds.map Event.enqueue ++ mid ++ [Event.listingFetch x]),
        isIndexXmlEv e = false ∧ isStyleEv e = false := by
    intro path ds mid x hmid e he
    rcases List.mem_append.mp he with h | h
    · rcases List.mem_append.mp h with h | h
      · rcases List.mem_cons.mp h with h | h
        · subst h; exact ⟨rfl, rfl⟩
        · rcases List.mem_map.mp h with ⟨y, _, rfl⟩; exact ⟨rfl, rfl⟩
      · exact hmid e h
    · simp at h; subst h; exact ⟨rfl, rfl⟩
  have hW : ∀ (p : PyStr) (x : Option PyStr),
      ∀ e ∈ [Event.writeAlbumMeta p x], isIndexXmlEv e = false ∧ isStyleEv e = false := by
    intro p x e he
    simp at he
    subst he
    exact ⟨rfl, rfl⟩
  have hloop : ∀ (dest : PyStr) (imgs : List ImageInfo),
      ∀ e ∈ ((imageLoop env dest imgs).map SaveResult.events).flatten,
        isIndexXmlEv e = false ∧ isStyleEv e = false := by
    intro dest imgs e he
    rcases imageLoop_events_cases env dest imgs e he with ⟨p, q, rfl⟩ | ⟨p, q, rfl⟩ | ⟨x, rfl⟩ <;>
      exact ⟨rfl, rfl⟩
  intro e he
  simp only [afterMeta, hx] at he
  rcases hi : env.imagesResp (reboundId env a meta) with _ | ⟨st, ok, imgs⟩ <;>
    simp only [hi] at he
  · exact hpre _ _ _ _ (hW _ _) e he
  · by_cases hst : st ≠ 200 ∨ ok = false
    · rw [if_pos hst] at he
      exact hpre _ _ _ _ (hW _ _) e he
    · rw [if_neg hst] at he
      rcases List.mem_append.mp he with h | h
      · exact hpre _ _ _ _ (hW _ _) e h
      · exact hloop _ _ e h

/-- C8: with structured output on (and both fetches succeeding), an album's
processing writes no per-image `.txt` sidecar and exactly one `index.xml`
and one `archive.xsl`; with structured output off, no structured document
or stylesheet is ever written (whatever the fetch outcomes). -/
theorem mode_exclusivity :
    (∀ (env : Env) (a dst : Option PyStr) (m : AlbumMeta) (te : List CrawlTask × List Event),
       env.xml = true →
       env.metaResp a = .envelope 200 true m →
       (∀ x, ∃ l, env.imagesResp x = .envelope 200 true l) →
       processAlbum env a dst = .ok te →
       countSidecar te.2 = 0 ∧ countIndexXml te.2 = 1 ∧ countStyleXsl te.2 = 1) ∧
    (∀ (env : Env) (a dst : Option PyStr) (te : List CrawlTask × List Event),
       env.xml = false → processAlbum env a dst = .ok te →
       countIndexXml te.2 = 0 ∧ countStyleXsl te.2 = 0) := by
  constructor
  · intro env a dst m te hx hm himg hp
    obtain ⟨l, hil⟩ := himg (reboundId env a m)
    simp only [processAlbum, get_album_metadata, hm, Except.ok.injEq] at hp
    rw [if_neg (by simp)] at hp
    simp only [Except.ok.injEq] at hp
    rw [← hp]
    have henq : ∀ ds : List PyStr, (ds.map Event.enqueue).filter isSidecarEv = [] ∧
        (ds.map Event.enqueue).filter isIndexXmlEv = [] ∧
        (ds.map Event.enqueue).filter isStyleEv = [] := by
      intro ds
      refine ⟨?_, ?_, ?_⟩ <;>
      · apply filterEv_eq_nil
        intro e he
        rcases List.mem_map.mp he with ⟨y, _, rfl⟩
        rfl
    have hloopS : ∀ (dest : PyStr) (imgs : List ImageInfo),
        (((imageLoop env dest imgs).map SaveResult.events).flatten).filter isSidecarEv = [] := by
      intro dest imgs
      apply filterEv_eq_nil
      intro e he
      rcases List.mem_flatten.mp he with ⟨l2, hl2, hel2⟩
      rcases List.mem_map.mp hl2 with ⟨r, hr, rfl⟩
      unfold imageLoop at hr
      rcases List.mem_map.mp hr with ⟨pp, _, rfl⟩
      exact save_image_sidecar_mem_xml env pp.2 dest pp.1 hx e hel2
    have hloopX : ∀ (dest : PyStr) (imgs : List ImageInfo),
        (((imageLoop env dest imgs).map SaveResult.events).flatten).filter isIndexXmlEv = [] ∧
        (((imageLoop env dest imgs).map SaveResult.events).flatten).filter isStyleEv = [] := by
      intro dest imgs
      constructor <;>
      · apply filterEv_eq_nil
        intro e he
        rcases imageLoop_events_cases env dest imgs e he with
          ⟨p, q, rfl⟩ | ⟨p, q, rfl⟩ | ⟨x, rfl⟩ <;> rfl
    simp only [afterMeta, hil]
    rw [if_neg (by simp)]
    rw [if_neg (by simp [hx])]
    refine ⟨?_, ?_, ?_⟩
    · simp [countSidecar, List.filter_append, List.filter_cons, isSidecarEv, hx,
        (henq _).1, hloopS]
    · simp [countIndexXml, List.filter_append, List.filter_cons, isIndexXmlEv, hx,
        (henq _).2.1, (hloopX _ _).1]
    · simp [countStyleXsl, List.filter_append, List.filter_cons, isStyleEv, hx,
        (henq _).2.2, (hloopX _ _).2]
  · intro env a dst te hx hp
    simp only [processAlbum] at hp
    cases hm : get_album_metadata env a with
    | error e => rw [hm] at hp; simp at hp
    | ok om =>
      rw [hm] at hp
      cases om with
      | none =>
        simp only [Except.ok.injEq] at hp
        rw [← hp]
        exact ⟨rfl, rfl⟩
      | some m =>
        simp only [Except.ok.injEq] at hp
        rw [← hp]
        constructor
        · have h := filterEv_eq_nil isIndexXmlEv
            (Event.metaFetch a :: (afterMeta env a m dst).2) ?memx
          · unfold countIndexXml
            rw [h]
            rfl
          case memx =>
            intro e he
            rcases List.mem_cons.mp he with h | h
            · subst h; rfl
            · exact (afterMeta_no_structured_of_nonxml env a m dst hx e h).1
        · have h := filterEv_eq_nil isStyleEv
            (Event.metaFetch a :: (afterMeta env a m dst).2) ?memy
          · unfold countStyleXsl
            rw [h]
            rfl
          case memy =>
            intro e he
            rcases List.mem_cons.mp he with h | h
            · subst h; rfl
            · exact (afterMeta_no_structured_of_nonxml env a m dst hx e h).2

theorem mode_exclusivity_witness :
    (countSidecar te8.2 = 0 ∧ countIndexXml te8.2 = 1 ∧ countStyleXsl te8.2 = 1) ∧
    (countIndexXml te10.2 = 0 ∧ countStyleXsl te10.2 = 0) :=
  ⟨mode_exclusivity.1 E8x (some "a".data) none metaW te8 rfl rfl (fun _ => ⟨[], rfl⟩) (by rfl),
   mode_exclusivity.2 E10 (some "a0".data) none te10 rfl (by rfl)⟩

/-! ### C1 — dedup: at most one metadata fetch per identifier -/

theorem countEv_append (x : Event) (l l2 : List Event) :
    countEv x (l ++ l2) = countEv x l + countEv x l2 := by
  simp [countEv, List.filter_append]

theorem countEv_cons (x y : Event) (l : List Event) :
    countEv x (y :: l) = (if y = x then 1 else 0) + countEv x l := by
  by_cases h : y = x
  · simp [countEv, List.filter_cons, h]
    omega
  · simp [countEv, List.filter_cons, h]

theorem noMI_counts (x : Option PyStr) (l : List Event) (h : ∀ e ∈ l, isMI e = false) :
    countEv (Event.seenInsert x) l = 0 ∧ countEv (Event.metaFetch x) l = 0 := by
  constructor <;>
  · unfold countEv
    rw [filterEv_eq_nil]
    · rfl
    · intro e he
      simp only [decide_eq_false_iff_not]
      intro hc
      subst hc
      have := h _ he
      simp [isMI] at this

theorem chunk_counts (a x : Option PyStr) (rest : List Event)
    (hnoMI : ∀ e ∈ rest, isMI e = false) :
    countEv (Event.seenInsert x) (Event.seenInsert a :: Event.metaFetch a :: rest)
      = (if a = x then 1 else 0) ∧
    countEv (Event.metaFetch x) (Event.seenInsert a :: Event.metaFetch a :: rest)
      = (if a = x then 1 else 0) := by
  have h1 := (noMI_counts x rest hnoMI).1
  have h2 := (noMI_counts x rest hnoMI).2
  constructor
  · rw [countEv_cons, countEv_cons, h1]
    by_cases hax : a = x
    · simp [hax]
    · simp [hax]
  · rw [countEv_cons, countEv_cons, h2]
    by_cases hax : a = x
    · simp [hax]
    · simp [hax]

theorem chunk_prefOK (a x : Option PyStr) (rest : List Event)
    (hnoMI : ∀ e ∈ rest, isMI e = false) (j : Nat) :
    countEv (Event.metaFetch x) ((Event.seenInsert a :: Event.metaFetch a :: rest).take j)
      ≤ countEv (Event.seenInsert x) ((Event.seenInsert a :: Event.metaFetch a :: rest).take j)
    := by
  cases j with
  | zero => simp [countEv]
  | succ j =>
    rw [List.take_succ_cons, countEv_cons, countEv_cons]
    cases j with
    | zero =>
      simp [countEv]
    | succ j2 =>
      rw [List.take_succ_cons, countEv_cons, countEv_cons]
      have hno : ∀ e ∈ rest.take j2, isMI e = false :=
        fun e he => hnoMI e (List.take_subset _ _ he)
      have h1 := (noMI_counts x (rest.take j2) hno).1
      have h2 := (noMI_counts x (rest.take j2) hno).2
      rw [h1, h2]
      by_cases hax : a = x
      · simp [hax]
      · simp [hax]

theorem InvC1_step (env : Env) (u alb d : Option PyStr) (s s2 : St)
    (h : download_album env u alb d s = .ok s2) (hI : InvC1 s) : InvC1 s2 := by
  rcases download_album_ok_cases env u alb d s s2 h with ⟨_, rfl⟩ | ⟨te, hok, hnot, rfl⟩
  · exact hI
  · obtain ⟨rest, hrest, hnoMI⟩ := processAlbum_shape env (resolveA u alb) d te hok
    obtain ⟨hI1, hI2, hI3⟩ := hI
    unfold InvC1
    dsimp only
    rw [hrest]
    refine ⟨?_, ?_, ?_⟩
    · intro x hx
      rw [countEv_append, (chunk_counts (resolveA u alb) x rest hnoMI).1]
      rcases List.mem_append.mp hx with hx | hx
      · have hxa : ¬(resolveA u alb = x) := fun hh => hnot (hh ▸ hx)
        rw [hI1 x hx, if_neg hxa]
      · simp only [List.mem_singleton] at hx
        subst hx
        rw [hI2 _ hnot, if_pos rfl]
    · intro x hx
      rw [countEv_append, (chunk_counts (resolveA u alb) x rest hnoMI).1]
      have hx1 : x ∉ s.seen := fun hh => hx (List.mem_append.mpr (Or.inl hh))
      have hx2 : ¬(resolveA u alb = x) := by
        intro hh
        exact hx (List.mem_append.mpr (Or.inr (by simp [hh])))
      rw [hI2 x hx1, if_neg hx2]
    · intro x k
      by_cases hk : k ≤ s.log.length
      · rw [List.take_append_of_le_length hk]
        exact hI3 x k
      · rw [List.take_append_eq_append_take,
          List.take_of_length_le (by omega : s.log.length ≤ k)]
        rw [countEv_append, countEv_append]
        have hLk := hI3 x s.log.length
        rw [List.take_length] at hLk
        have hchunk := chunk_prefOK (resolveA u alb) x rest hnoMI (k - s.log.length)
        omega

theorem runQueue_InvC1 (env : Env) :
    ∀ (n : Nat) (s s2 : St), runQueue env n s = some (.ok s2) → InvC1 s → InvC1 s2 := by
  intro n
  induction n with
  | zero =>
    intro s s2 h hI
    simp only [runQueue] at h
    split at h
    · simp only [Option.some.injEq, Except.ok.injEq] at h
      subst h
      exact hI
    · simp at h
  | succ n ih =>
    intro s s2 h hI
    simp only [runQueue] at h
    cases hq : s.queue with
    | nil =>
      rw [hq] at h
      simp only [Option.some.injEq, Except.ok.injEq] at h
      subst h
      exact hI
    | cons t rest =>
      rw [hq] at h
      cases hda : download_album env t.url t.album none
          { queue := rest, seen := s.seen, log := s.log } with
      | error e => simp only [hda] at h; simp at h
      | ok sm =>
        simp only [hda] at h
        exact ih sm s2 h (InvC1_step env t.url t.album none _ sm hda hI)

/-- C1: in any completed run that starts with an empty Seen-Set, every
identifier is inserted into `seen` at most once, its metadata is fetched at
most once, and in every prefix of the event log the fetches for an
identifier never outnumber its insertions (so the insertion comes strictly
before the fetch); moreover a task whose resolved identifier is already in
`seen` is an exact no-op. -/
theorem dedup_at_most_once :
    (∀ (env : Env) (q0 : List CrawlTask) (n : Nat) (s2 : St),
       runQueue env n { queue := q0, seen := [], log := [] } = some (.ok s2) →
       (∀ x, countEv (Event.seenInsert x) s2.log ≤ 1) ∧
       (∀ x, countEv (Event.metaFetch x) s2.log ≤ 1) ∧
       (∀ (x : Option PyStr) (k : Nat),
         countEv (Event.metaFetch x) (s2.log.take k) ≤
           countEv (Event.seenInsert x) (s2.log.take k))) ∧
    (∀ (env : Env) (u alb d : Option PyStr) (s : St),
       (pyTruthyS u = true ∨ pyTruthyS alb = true) →
       resolveA u alb ∈ s.seen →
       download_album env u alb d s = .ok s) := by
  constructor
  · intro env q0 n s2 hrun
    have hI0 : InvC1 { queue := q0, seen := [], log := [] } := by
      refine ⟨?_, ?_, ?_⟩
      · intro x hx
        simp at hx
      · intro x _
        rfl
      · intro x k
        simp [countEv]
    obtain ⟨h1, h2, h3⟩ := runQueue_InvC1 env n _ s2 hrun hI0
    have hseenle : ∀ x, countEv (Event.seenInsert x) s2.log ≤ 1 := by
      intro x
      by_cases hx : x ∈ s2.seen
      · rw [h1 x hx]
      · rw [h2 x hx]
        exact Nat.zero_le _
    refine ⟨hseenle, ?_, h3⟩
    intro x
    have hk := h3 x s2.log.length
    rw [List.take_length] at hk
    exact le_trans hk (hseenle x)
  · intro env u alb d s hwf hm
    exact download_album_noop env u alb d s hwf hm

theorem dedup_at_most_once_witness :
    ((∀ x, countEv (Event.seenInsert x) s1fin.log ≤ 1) ∧
     (∀ x, countEv (Event.metaFetch x) s1fin.log ≤ 1) ∧
     (∀ (x : Option PyStr) (k : Nat),
       countEv (Event.metaFetch x) (s1fin.log.take k) ≤
         countEv (Event.seenInsert x) (s1fin.log.take k))) ∧
    download_album E10 none (some "zz".data) none
      { queue := [], seen := [some "zz".data], log := [] } =
      .ok { queue := [], seen := [some "zz".data], log := [] } :=
  ⟨dedup_at_most_once.1 E10
     [{ url := none, album := some "a0".data }, { url := none, album := some "a0".data }]
     6 s1fin (by rfl),
   dedup_at_most_once.2 E10 none (some "zz".data) none _ (by decide) (by decide)⟩

/-! ### C4 — termination of the crawl -/

theorem enqAlbums_eq (env : Env) (a : Option PyStr) (te : List CrawlTask × List Event)
    (h : processAlbum env a none = .ok te) : enqAlbums env a = te.1.map CrawlTask.album := by
  unfold enqAlbums
  rw [h]

theorem le_foldr_max : ∀ (l : List Nat) (x : Nat), x ∈ l → x ≤ l.foldr max 0 := by
  intro l
  induction l with
  | nil => intro x hx; simp at hx
  | cons a t ih =>
    intro x hx
    rcases List.mem_cons.mp hx with h | h
    · subst h
      exact le_max_left _ _
    · exact le_trans (ih x h) (le_max_right _ _)

theorem enq_le_maxEnq (env : Env) (U : List (Option PyStr)) (a : Option PyStr)
    (ha : a ∈ U) : (enqAlbums env a).length ≤ maxEnq env U :=
  le_foldr_max _ _ (List.mem_map.mpr ⟨a, ha, rfl⟩)

theorem filter_length_mono {α : Type} (p q : α → Bool) (himp : ∀ y, q y = true → p y = true) :
    ∀ l : List α, (l.filter q).length ≤ (l.filter p).length := by
  intro l
  induction l with
  | nil => simp
  | cons a t ih =>
    by_cases hq : q a = true
    · simp only [List.filter_cons, hq, himp a hq, if_true, List.length_cons]
      exact Nat.succ_le_succ ih
    · have hq' : q a = false := by revert hq; cases q a <;> simp
      by_cases hp : p a = true
      · simp only [List.filter_cons, hq', hp, Bool.false_eq_true, if_false, if_true,
          List.length_cons]
        exact le_trans ih (Nat.le_succ _)
      · have hp' : p a = false := by revert hp; cases p a <;> simp
        simp only [List.filter_cons, hq', hp', Bool.false_eq_true, if_false]
        exact ih

theorem filter_length_strict {α : Type} (p q : α → Bool) (himp : ∀ y, q y = true → p y = true)
    (a : α) : ∀ l : List α, a ∈ l → p a = true → q a = false →
    (l.filter q).length < (l.filter p).length := by
  intro l
  induction l with
  | nil => intro h; simp at h
  | cons b t ih =>
    intro hmem hp hq
    rcases List.mem_cons.mp hmem with h | h
    · subst h
      simp only [List.filter_cons, hq, hp, Bool.false_eq_true, if_false, if_true,
        List.length_cons]
      exact Nat.lt_succ_of_le (filter_length_mono p q himp t)
    · by_cases hqb : q b = true
      · simp only [List.filter_cons, hqb, himp b hqb, if_true, List.length_cons]
        exact Nat.succ_lt_succ (ih h hp hq)
      · have hqb' : q b = false := by revert hqb; cases q b <;> simp
        by_cases hpb : p b = true
        · simp only [List.filter_cons, hqb', hpb, Bool.false_eq_true, if_false, if_true,
            List.length_cons]
          exact Nat.lt_succ_of_lt (ih h hp hq)
        · have hpb' : p b = false := by revert hpb; cases p b <;> simp
          simp only [List.filter_cons, hqb', hpb', Bool.false_eq_true, if_false]
          exact ih h hp hq

theorem unseen_decrease (U seen : List (Option PyStr)) (a : Option PyStr)
    (haU : a ∈ U) (hans : a ∉ seen) :
    unseenCount U (seen ++ [a]) < unseenCount U seen := by
  unfold unseenCount
  exact filter_length_strict (fun y => decide (y ∉ seen)) (fun y => decide (y ∉ seen ++ [a]))
    (fun y hy => by
      simp only [decide_eq_true_eq] at hy ⊢
      intro hc
      exact hy (List.mem_append.mpr (Or.inl hc)))
    a U.dedup (List.mem_dedup.mpr haU) (by simp [hans]) (by simp)

theorem runQueue_terminates_aux (env : Env) (U : List (Option PyStr))
    (hT : ∀ x, env.metaResp x ≠ .transportError)
    (hclosed : ∀ a ∈ U, ∀ x ∈ enqAlbums env a, x ∈ U) :
    ∀ (m : Nat) (s : St), crawlMeasure env U s ≤ m →
      (∀ t ∈ s.queue, (pyTruthyS t.url = true ∨ pyTruthyS t.album = true) ∧
        resolveA t.url t.album ∈ U) →
      ∃ (n : Nat) (s2 : St), runQueue env n s = some (.ok s2) ∧ s2.queue = [] ∧
        ∃ ext, s2.seen = s.seen ++ ext := by
  intro m
  induction m with
  | zero =>
    intro s hm _
    have hq0 : s.queue = [] := by
      unfold crawlMeasure at hm
      have : s.queue.length = 0 := by omega
      exact List.length_eq_zero.mp this
    exact ⟨1, s, by simp [runQueue, hq0], hq0, [], by simp⟩
  | succ m ih =>
    intro s hm hq
    cases hqe : s.queue with
    | nil => exact ⟨1, s, by simp [runQueue, hqe], hqe, [], by simp⟩
    | cons t rest =>
      have hmemt : t ∈ s.queue := by rw [hqe]; exact List.mem_cons_self t rest
      have hwf := (hq t hmemt).1
      have hU := (hq t hmemt).2
      by_cases hseen : resolveA t.url t.album ∈ s.seen
      · have hda := download_album_noop env t.url t.album none
          { queue := rest, seen := s.seen, log := s.log } hwf hseen
        have hm1 : crawlMeasure env U { queue := rest, seen := s.seen, log := s.log } ≤ m := by
          unfold crawlMeasure at hm ⊢
          rw [hqe] at hm
          simp only [List.length_cons] at hm
          dsimp only
          omega
        obtain ⟨n, s2, hrun, hq2, ext, hext⟩ := ih { queue := rest, seen := s.seen, log := s.log }
          hm1 (fun t2 ht2 => hq t2 (by rw [hqe]; exact List.mem_cons_of_mem t ht2))
        refine ⟨n + 1, s2, ?_, hq2, ext, hext⟩
        simp only [runQueue, hqe, hda]
        exact hrun
      · cases hmr : env.metaResp (resolveA t.url t.album) with
        | transportError => exact absurd hmr (hT _)
        | envelope st ok mm =>
          obtain ⟨te, hok⟩ := processAlbum_ok_of_envelope env (resolveA t.url t.album) none
            st ok mm hmr
          have hda := download_album_new env t.url t.album none
            { queue := rest, seen := s.seen, log := s.log } te hwf hseen hok
          have hlen : te.1.length ≤ maxEnq env U := by
            have h0 := enq_le_maxEnq env U (resolveA t.url t.album) hU
            rw [enqAlbums_eq env _ te hok] at h0
            simpa using h0
          have hdec := unseen_decrease U s.seen (resolveA t.url t.album) hU hseen
          have hm1 : crawlMeasure env U
              { queue := rest ++ te.1, seen := s.seen ++ [resolveA t.url t.album],
                log := s.log ++ Event.seenInsert (resolveA t.url t.album) :: te.2 } ≤ m := by
            unfold crawlMeasure at hm ⊢
            rw [hqe] at hm
            simp only [List.length_cons, List.length_append] at hm ⊢
            have hmul : (maxEnq env U + 1) *
                (unseenCount U (s.seen ++ [resolveA t.url t.album]) + 1) ≤
                (maxEnq env U + 1) * unseenCount U s.seen :=
              Nat.mul_le_mul_left _ (Nat.succ_le_of_lt hdec)
            rw [Nat.mul_succ] at hmul
            set k := maxEnq env U + 1 with hk
            set A := k * unseenCount U s.seen with hA
            set B := k * unseenCount U (s.seen ++ [resolveA t.url t.album]) with hB
            omega
          have hq1 : ∀ t2 ∈ rest ++ te.1,
              (pyTruthyS t2.url = true ∨ pyTruthyS t2.album = true) ∧
                resolveA t2.url t2.album ∈ U := by
            intro t2 ht2
            rcases List.mem_append.mp ht2 with h | h
            · exact hq t2 (by rw [hqe]; exact List.mem_cons_of_mem t h)
            · have hsh := processAlbum_tasks_shape env _ none te hok t2 h
              refine ⟨Or.inr hsh.2, ?_⟩
              have hres2 : resolveA t2.url t2.album = t2.album := by
                simp [resolveA, hsh.1, pyTruthyS]
              rw [hres2]
              refine hclosed (resolveA t.url t.album) hU t2.album ?_
              rw [enqAlbums_eq env _ te hok]
              exact List.mem_map.mpr ⟨t2, h, rfl⟩
          obtain ⟨n, s2, hrun, hq2, ext, hext⟩ := ih _ hm1 hq1
          refine ⟨n + 1, s2, ?_, hq2, [resolveA t.url t.album] ++ ext, ?_⟩
          · simp only [runQueue, hqe, hda]
            exact hrun
          · rw [hext]
            dsimp only
            rw [List.append_assoc]

/-- C4: for a finite universe `U` of album identifiers that contains the
resolved identifiers of all initially queued tasks and is closed under
discovery (every identifier a processed album enqueues stays in `U`), and
when no album-metadata fetch raises a transport error (the uncaught case
recorded under C2), the `Processor.start` loop reaches an empty queue
after finitely many task executions, and the Seen-Set only ever grows. -/
theorem crawl_terminates (env : Env) (U : List (Option PyStr)) (s : St)
    (hT : ∀ x, env.metaResp x ≠ .transportError)
    (hclosed : ∀ a ∈ U, ∀ x ∈ enqAlbums env a, x ∈ U)
    (hq : ∀ t ∈ s.queue, (pyTruthyS t.url = true ∨ pyTruthyS t.album = true) ∧
      resolveA t.url t.album ∈ U) :
    ∃ (n : Nat) (s2 : St), runQueue env n s = some (.ok s2) ∧ s2.queue = [] ∧
      ∃ ext, s2.seen = s.seen ++ ext :=
  runQueue_terminates_aux env U hT hclosed (crawlMeasure env U s) s le_rfl hq

theorem crawl_terminates_witness :
    ∃ (n : Nat) (s2 : St),
      runQueue E4 n { queue := [{ url := none, album := some "a".data }], seen := [], log := [] }
        = some (.ok s2) ∧ s2.queue = [] ∧
      ∃ ext, s2.seen = ([] : List (Option PyStr)) ++ ext :=
  crawl_terminates E4 U4
    { queue := [{ url := none, album := some "a".data }], seen := [], log := [] }
    (fun x => by
      intro h
      revert h
      simp only [E4]
      split
      · exact fun h => FetchOutcome.noConfusion h
      · split
        · exact fun h => FetchOutcome.noConfusion h
        · exact fun h => FetchOutcome.noConfusion h)
    (by decide) (by decide)
